import Mathlib

/-!
Verification of the OnionTransfer wire protocol (`oniontransfer.go`).

The byte stream is modeled as `List Nat` (each element a byte value).
Strings on the wire are their UTF-8 bytes (`List Nat`); filesystem path
strings are modeled as `List Char`.  Go's `int64` is modeled as `Int`
with explicit reduction modulo `2 ^ 64` where the 8-byte encoding is
produced, and the signed reinterpretation where it is decoded.
-/

set_option maxHeartbeats 1000000
set_option maxRecDepth 8000

deriving instance DecidableEq for Except

namespace OnionTransfer

/-- `chunkSize` constant: 32 KiB chunks. -/
def chunkSize : Nat := 32 * 1024

/-- `maxFilenameLen` constant: maximum filename length accepted by the receiver. -/
def maxFilenameLen : Nat := 255

/-- Big-endian encoding of `v` into `width` bytes, as `binary.Write` of a
fixed-width unsigned value (bits above the width are truncated, which is what
the `uint32(...)` conversion does in `sendFileInfo`). -/
def toBytesBE : Nat → Nat → List Nat
  | 0, _ => []
  | w + 1, v => toBytesBE w (v / 256) ++ [v % 256]

/-- Big-endian decoding of a byte list to an unsigned value, as `binary.Read`. -/
def fromBytesBE (l : List Nat) : Nat := l.foldl (fun a b => a * 256 + b) 0

theorem toBytesBE_length (w v : Nat) : (toBytesBE w v).length = w := by
  induction w generalizing v with
  | zero => rfl
  | succ w ih => simp [toBytesBE, ih]

theorem fromBytesBE_append_singleton (l : List Nat) (b : Nat) :
    fromBytesBE (l ++ [b]) = fromBytesBE l * 256 + b := by
  simp [fromBytesBE, List.foldl_append]

theorem fromBytesBE_toBytesBE (w v : Nat) (h : v < 2 ^ (8 * w)) :
    fromBytesBE (toBytesBE w v) = v := by
  induction w generalizing v with
  | zero =>
    have hv : v = 0 := by
      have : v < 1 := by simpa using h
      omega
    subst hv; rfl
  | succ w ih =>
    have hdiv : v / 256 < 2 ^ (8 * w) := by
      have hrw : (2 : Nat) ^ (8 * (w + 1)) = 2 ^ (8 * w) * 256 := by
        rw [Nat.mul_succ, pow_add]; norm_num
      rw [Nat.div_lt_iff_lt_mul (by norm_num : 0 < 256)]
      rw [hrw] at h; exact h
    rw [toBytesBE, fromBytesBE_append_singleton, ih (v / 256) hdiv]
    omega

/-- The `FileInfo` struct: metadata of the item being transferred.  The
filename is kept as its wire bytes. -/
structure FileInfo where
  Filename : List Nat
  FileSize : Int
  IsDirectory : Bool
  deriving DecidableEq

/-- Error kinds a pure decode can produce: `eof` is a clean end-of-stream
(`io.EOF`: zero bytes available at the start of a read), `unexpectedEof` is the
stream ending mid-read (`io.ErrUnexpectedEOF`), `tooLong` is the
`"filename too long"` protocol error. -/
inductive RErr where
  | eof
  | unexpectedEof
  | tooLong
  deriving DecidableEq

/-- `io.ReadFull` on the modeled stream: reads exactly `n` bytes, returning the
bytes read and the rest of the stream; `io.EOF` when the stream is empty,
`io.ErrUnexpectedEOF` when it ends mid-read.  (`binary.Read` of a fixed-width
value reads through `io.ReadFull` as well.) -/
def readFull (n : Nat) (s : List Nat) : Except RErr (List Nat × List Nat) :=
  if s.length < n then
    if s.length = 0 then .error .eof else .error .unexpectedEof
  else .ok (s.take n, s.drop n)

/-- `sendFileInfo`: writes the 4-byte big-endian name length (`uint32`
truncation of the name's byte length), the name bytes, the 8-byte big-endian
signed size (two's complement, i.e. the bytes of `FileSize mod 2^64`), and one
flag byte (`1` for a directory, `0` for a file). -/
def sendFileInfo (fi : FileInfo) : List Nat :=
  toBytesBE 4 fi.Filename.length ++ fi.Filename ++
    toBytesBE 8 (fi.FileSize % 2 ^ 64).toNat ++
    [if fi.IsDirectory then 1 else 0]

/-- `receiveFileInfo`: reads the 4-byte length, rejects lengths above
`maxFilenameLen` with the `"filename too long"` error, then reads the name,
the 8-byte signed size, and the flag byte (`IsDirectory` iff the flag equals
`1`). -/
def receiveFileInfo (s : List Nat) : Except RErr (FileInfo × List Nat) :=
  match readFull 4 s with
  | .error e => .error e
  | .ok (lenB, s1) =>
    let filenameLen := fromBytesBE lenB
    if maxFilenameLen < filenameLen then .error .tooLong
    else
      match readFull filenameLen s1 with
      | .error e => .error e
      | .ok (nameB, s2) =>
        match readFull 8 s2 with
        | .error e => .error e
        | .ok (sizeB, s3) =>
          match readFull 1 s3 with
          | .error e => .error e
          | .ok (flagB, s4) =>
            let u := fromBytesBE sizeB
            let fileSize : Int := if u < 2 ^ 63 then (u : Int) else (u : Int) - 2 ^ 64
            .ok ({ Filename := nameB, FileSize := fileSize,
                   IsDirectory := decide (flagB.headI = 1) }, s4)

theorem readFull_append (n : Nat) (pre suf : List Nat) (h : pre.length = n) :
    readFull n (pre ++ suf) = .ok (pre, suf) := by
  subst h
  unfold readFull
  rw [if_neg (by simp)]
  congr 1
  exact Prod.ext (List.take_left ..) (List.drop_left ..)

/-- Shared round-trip helper: decoding an encoded frame recovers the descriptor
for any name of at most 255 bytes and any size in the `int64` range. -/
theorem receiveFileInfo_sendFileInfo (fi : FileInfo) (rest : List Nat)
    (hname : fi.Filename.length ≤ maxFilenameLen)
    (hlo : -(2 ^ 63) ≤ fi.FileSize) (hhi : fi.FileSize < 2 ^ 63) :
    receiveFileInfo (sendFileInfo fi ++ rest) = .ok (fi, rest) := by
  obtain ⟨name, size, isDir⟩ := fi
  simp only [FileInfo.mk.injEq] at *
  have hmod0 : (0 : Int) ≤ size % 2 ^ 64 := Int.emod_nonneg _ (by norm_num)
  have hmod1 : size % 2 ^ 64 < 2 ^ 64 := Int.emod_lt_of_pos _ (by norm_num)
  have hsz : (size % 2 ^ 64).toNat < 2 ^ (8 * 8) := by
    have : (8 : Nat) * 8 = 64 := by norm_num
    rw [this]; omega
  have h4 : readFull 4
      (toBytesBE 4 name.length ++
        (name ++ (toBytesBE 8 (size % 2 ^ 64).toNat ++
          ((if isDir then 1 else 0) :: rest)))) =
      .ok (toBytesBE 4 name.length,
        name ++ (toBytesBE 8 (size % 2 ^ 64).toNat ++
          ((if isDir then 1 else 0) :: rest))) :=
    readFull_append _ _ _ (toBytesBE_length ..)
  have hlen : fromBytesBE (toBytesBE 4 name.length) = name.length := by
    refine fromBytesBE_toBytesBE 4 name.length ?_
    have : (2 : Nat) ^ (8 * 4) = 4294967296 := by norm_num
    rw [this]
    simp only [maxFilenameLen] at hname
    omega
  have hn : readFull name.length
      (name ++ (toBytesBE 8 (size % 2 ^ 64).toNat ++
        ((if isDir then 1 else 0) :: rest))) =
      .ok (name, toBytesBE 8 (size % 2 ^ 64).toNat ++
        ((if isDir then 1 else 0) :: rest)) :=
    readFull_append _ _ _ rfl
  have h8 : readFull 8
      (toBytesBE 8 (size % 2 ^ 64).toNat ++ ((if isDir then 1 else 0) :: rest)) =
      .ok (toBytesBE 8 (size % 2 ^ 64).toNat, (if isDir then 1 else 0) :: rest) :=
    readFull_append _ _ _ (toBytesBE_length ..)
  have h1 : readFull 1 (((if isDir then (1 : Nat) else 0) :: rest)) =
      .ok ([if isDir then 1 else 0], rest) :=
    readFull_append 1 [if isDir then 1 else 0] rest rfl
  have hu : fromBytesBE (toBytesBE 8 (size % 2 ^ 64).toNat) = (size % 2 ^ 64).toNat :=
    fromBytesBE_toBytesBE _ _ hsz
  have hsize : (if (size % 2 ^ 64).toNat < 2 ^ 63
      then ((size % 2 ^ 64).toNat : Int)
      else ((size % 2 ^ 64).toNat : Int) - 2 ^ 64) = size := by
    split <;> omega
  have hflag : decide (([if isDir then (1 : Nat) else 0].headI) = 1) = isDir := by
    cases isDir <;> rfl
  unfold receiveFileInfo sendFileInfo
  simp only [List.append_assoc, List.cons_append, List.nil_append]
  rw [h4]
  simp only [hlen]
  rw [if_neg (by omega)]
  simp only [hn, h8, h1, hu, hsize, hflag]

/-- Filesystem effects of one receiver connection (`receiveFileRaw`): a
directory created for a directory frame, or a file created for a file frame
with the content bytes written into it; `complete = false` records a file whose
content loop never finished. Names are the decoded wire bytes. -/
inductive RItem where
  | dir (name : List Nat)
  | file (name : List Nat) (content : List Nat) (complete : Bool)
  deriving DecidableEq

/-- How a run of `receiveFileRaw` ends: `ok` is the `return nil` path, `fatal`
the error-return path, `hang` that the given fuel was exhausted without the
loop terminating. -/
inductive ROut where
  | ok
  | fatal
  | hang
  deriving DecidableEq

/-- The content loop of `receiveFileRaw` (lines 445-473): while fewer than
`size` bytes were received, read `min chunkSize remaining` bytes with
`io.ReadFull` — whose `io.EOF` / `io.ErrUnexpectedEOF` results are explicitly
ignored by the code — write the `n` bytes actually read to the file, and add
`n` to the received count.  Returns the file content written, the rest of the
stream, and whether the loop exited (`false` = fuel exhausted, i.e. the code
would still be looping). -/
def recvContent (fuel : Nat) (size received : Int) (stream acc : List Nat) :
    List Nat × List Nat × Bool :=
  match fuel with
  | 0 => (acc, stream, false)
  | fuel + 1 =>
    if received < size then
      let remaining := size - received
      let readSize : Nat := min chunkSize remaining.toNat
      let n : Nat := min readSize stream.length
      recvContent fuel size (received + n) (stream.drop n) (acc ++ stream.take n)
    else (acc, stream, true)

/-- The frame loop of `receiveFileRaw`: decode a frame; on a decode error
return `nil` when the error is `io.EOF` or its message contains
`"closed"` / `"reset"` / `"unexpected EOF"` (which is the message of
`io.ErrUnexpectedEOF`), otherwise return the error; on a directory frame
create the directory and continue; on a file frame create the file, run the
content loop, and continue behind it.  Indexed by fuel for termination; `hang`
reports that fuel ran out with the code still looping. -/
def receiveFileRawLoop (fuel : Nat) (s : List Nat) : List RItem × ROut :=
  match fuel with
  | 0 => ([], .hang)
  | fuel + 1 =>
    match receiveFileInfo s with
    | .error .eof => ([], .ok)
    | .error .unexpectedEof => ([], .ok)
    | .error .tooLong => ([], .fatal)
    | .ok (fi, rest) =>
      if fi.IsDirectory then
        let r := receiveFileRawLoop fuel rest
        (.dir fi.Filename :: r.1, r.2)
      else
        let c := recvContent (fuel + 1) fi.FileSize 0 rest []
        if c.2.2 then
          let r := receiveFileRawLoop fuel c.2.1
          (.file fi.Filename c.1 true :: r.1, r.2)
        else ([.file fi.Filename c.1 false], .hang)

/-- On an exhausted stream with bytes still owed, one pass of the content loop
reads zero bytes, ignores the `io.EOF`, and changes nothing: the loop never
exits, whatever the fuel. -/
theorem recvContent_empty_stuck (fuel : Nat) (size received : Int) (acc : List Nat)
    (h : received < size) : recvContent fuel size received [] acc = (acc, [], false) := by
  induction fuel generalizing received with
  | zero => rfl
  | succ fuel ih =>
    rw [recvContent]
    rw [if_pos h]
    simpa using ih received h

/-- C1: Round-trip of the frame codec: for any descriptor whose name is 0-255
bytes long, whose size is a non-negative `int64`, and with either
directory-flag value, encoding it with `sendFileInfo` and then decoding the
resulting bytes with `receiveFileInfo` yields a descriptor with identical
name, size, and directory flag (and leaves any following bytes untouched). -/
theorem C1_roundtrip (fi : FileInfo) (rest : List Nat)
    (hname : fi.Filename.length ≤ maxFilenameLen)
    (h0 : 0 ≤ fi.FileSize) (hhi : fi.FileSize < 2 ^ 63) :
    receiveFileInfo (sendFileInfo fi ++ rest) = .ok (fi, rest) :=
  receiveFileInfo_sendFileInfo fi rest hname (by omega) hhi

theorem C1_roundtrip_witness :
    (([104, 105] : List Nat).length ≤ maxFilenameLen ∧
      (0 : Int) ≤ 7 ∧ (7 : Int) < 2 ^ 63) ∧
    receiveFileInfo
        (sendFileInfo { Filename := [104, 105], FileSize := 7, IsDirectory := true } ++ [9]) =
      .ok ({ Filename := [104, 105], FileSize := 7, IsDirectory := true }, [9]) :=
  ⟨⟨by decide, by norm_num, by norm_num⟩,
    C1_roundtrip { Filename := [104, 105], FileSize := 7, IsDirectory := true } [9]
      (by decide) (by norm_num) (by norm_num)⟩

/-- C4: Oversize-name rejection: whenever the first 4 stream bytes decode to a
name length above 255, `receiveFileInfo` fails with the `"filename too long"`
protocol error; the result is the same for every continuation of the stream,
so no name, size, or flag bytes are consumed. -/
theorem C4_oversize (b0 b1 b2 b3 : Nat) (rest : List Nat)
    (h : maxFilenameLen < fromBytesBE [b0, b1, b2, b3]) :
    receiveFileInfo (b0 :: b1 :: b2 :: b3 :: rest) = .error .tooLong := by
  have h4 : readFull 4 ([b0, b1, b2, b3] ++ rest) = .ok ([b0, b1, b2, b3], rest) :=
    readFull_append 4 [b0, b1, b2, b3] rest rfl
  unfold receiveFileInfo
  simp only [show (b0 :: b1 :: b2 :: b3 :: rest : List Nat) = [b0, b1, b2, b3] ++ rest from rfl,
    h4]
  rw [if_pos h]

theorem C4_oversize_witness :
    maxFilenameLen < fromBytesBE [0, 0, 1, 0] ∧
    receiveFileInfo [0, 0, 1, 0] = .error .tooLong :=
  ⟨by decide, C4_oversize 0 0 1 0 [] (by decide)⟩

/-- C10: The encoder does not enforce the 255-byte name cap: for any descriptor
with a name longer than 255 bytes (within the 32-bit length field's range),
`sendFileInfo` writes the complete frame, its length field carrying the
oversize length — and the receiver side is what rejects it. -/
theorem C10_encoder_no_cap (fi : FileInfo) (rest : List Nat)
    (hgt : maxFilenameLen < fi.Filename.length) (hlt : fi.Filename.length < 2 ^ 32) :
    (sendFileInfo fi).length = 4 + fi.Filename.length + 9 ∧
    fromBytesBE ((sendFileInfo fi).take 4) = fi.Filename.length ∧
    receiveFileInfo (sendFileInfo fi ++ rest) = .error .tooLong := by
  have hlenfield : fromBytesBE (toBytesBE 4 fi.Filename.length) = fi.Filename.length := by
    refine fromBytesBE_toBytesBE 4 fi.Filename.length ?_
    have : (2 : Nat) ^ (8 * 4) = 2 ^ 32 := by norm_num
    rw [this]; exact hlt
  refine ⟨?_, ?_, ?_⟩
  · simp [sendFileInfo, toBytesBE_length]
    omega
  · have : (sendFileInfo fi).take 4 = toBytesBE 4 fi.Filename.length := by
      unfold sendFileInfo
      rw [List.append_assoc, List.append_assoc]
      exact List.take_left' (toBytesBE_length 4 _)
    rw [this, hlenfield]
  · have h4 : readFull 4
        (toBytesBE 4 fi.Filename.length ++
          (fi.Filename ++ (toBytesBE 8 (fi.FileSize % 2 ^ 64).toNat ++
            ((if fi.IsDirectory then 1 else 0) :: rest)))) =
        .ok (toBytesBE 4 fi.Filename.length,
          fi.Filename ++ (toBytesBE 8 (fi.FileSize % 2 ^ 64).toNat ++
            ((if fi.IsDirectory then 1 else 0) :: rest))) :=
      readFull_append _ _ _ (toBytesBE_length ..)
    unfold receiveFileInfo sendFileInfo
    simp only [List.append_assoc, List.cons_append, List.nil_append]
    rw [h4]
    simp only [hlenfield]
    rw [if_pos hgt]

theorem C10_encoder_no_cap_witness :
    (sendFileInfo { Filename := List.replicate 256 7, FileSize := 3, IsDirectory := false }).length =
        4 + 256 + 9 ∧
    receiveFileInfo
        (sendFileInfo { Filename := List.replicate 256 7, FileSize := 3, IsDirectory := false } ++ []) =
      .error .tooLong := by
  have h := C10_encoder_no_cap
    { Filename := List.replicate 256 7, FileSize := 3, IsDirectory := false } []
    (by simp [maxFilenameLen]) (by simp)
  exact ⟨by simpa using h.1, h.2.2⟩

/-- C9: Negative declared sizes are accepted without error: `receiveFileInfo`
decodes a frame with a negative 8-byte signed size successfully, and on such a
file frame the receiver loop creates the file, reads zero content bytes (the
content loop's entry condition is immediately false), and proceeds to the next
frame of the stream without an error. -/
theorem C9_negative_size (fi : FileInfo) (rest : List Nat) (fuel : Nat)
    (hname : fi.Filename.length ≤ maxFilenameLen)
    (hneg : fi.FileSize < 0) (hlo : -(2 ^ 63) ≤ fi.FileSize)
    (hfile : fi.IsDirectory = false) :
    receiveFileInfo (sendFileInfo fi ++ rest) = .ok (fi, rest) ∧
    receiveFileRawLoop (fuel + 1) (sendFileInfo fi ++ rest) =
      (RItem.file fi.Filename [] true :: (receiveFileRawLoop fuel rest).1,
        (receiveFileRawLoop fuel rest).2) := by
  have hparse := receiveFileInfo_sendFileInfo fi rest hname hlo (by omega)
  refine ⟨hparse, ?_⟩
  rw [receiveFileRawLoop]
  simp only [hparse]
  rw [if_neg (by simp [hfile])]
  have hc : recvContent (fuel + 1) fi.FileSize 0 rest [] = ([], rest, true) := by
    rw [recvContent, if_neg (by omega)]
  simp [hc]

theorem C9_negative_size_witness :
    receiveFileInfo (sendFileInfo { Filename := [110], FileSize := -1, IsDirectory := false } ++ []) =
      .ok ({ Filename := [110], FileSize := -1, IsDirectory := false }, []) ∧
    receiveFileRawLoop 1 (sendFileInfo { Filename := [110], FileSize := -1, IsDirectory := false } ++ []) =
      (RItem.file [110] [] true :: (receiveFileRawLoop 0 []).1,
        (receiveFileRawLoop 0 []).2) :=
  C9_negative_size { Filename := [110], FileSize := -1, IsDirectory := false } [] 0
    (by decide) (by norm_num) (by norm_num) rfl

/-- The stream of the truncated transfer: a file frame declaring 1000 content
bytes, followed by only 5 content bytes, then end of stream. -/
def truncatedInput : List Nat :=
  sendFileInfo { Filename := [97], FileSize := 1000, IsDirectory := false } ++ [1, 2, 3, 4, 5]

/-- C2 (code bug): on a stream that ends before the declared content size is
reached, `receiveFileRaw` does not return an error at all: the content loop
ignores `io.EOF`, keeps reading zero bytes, and never terminates, however much
fuel it is given; the file holds the 5 bytes that did arrive (fewer than the
declared 1000) and is never completed. -/
theorem C2_truncated_hang :
    (∀ fuel, (receiveFileRawLoop fuel truncatedInput).2 = ROut.hang) ∧
    receiveFileRawLoop 3 truncatedInput =
      ([RItem.file [97] [1, 2, 3, 4, 5] false], ROut.hang) := by
  constructor
  · intro fuel
    match fuel with
    | 0 => rfl
    | fuel + 1 =>
      have hparse : receiveFileInfo truncatedInput =
          .ok ({ Filename := [97], FileSize := 1000, IsDirectory := false }, [1, 2, 3, 4, 5]) :=
        receiveFileInfo_sendFileInfo _ _ (by decide) (by norm_num) (by norm_num)
      rw [receiveFileRawLoop]
      simp only [truncatedInput] at hparse ⊢
      simp only [hparse]
      rw [if_neg (by simp)]
      have hstep : recvContent (fuel + 1) 1000 0 [1, 2, 3, 4, 5] [] =
          recvContent fuel 1000 5 [] [1, 2, 3, 4, 5] := rfl
      have hc : recvContent (fuel + 1) 1000 0 [1, 2, 3, 4, 5] [] =
          ([1, 2, 3, 4, 5], [], false) := by
        rw [hstep]
        exact recvContent_empty_stuck fuel 1000 5 [1, 2, 3, 4, 5] (by norm_num)
      simp [hc]
  · decide

/-- C3 counterexample: a stream holding only 2 of the 4 length-field bytes ends
mid-frame; the decode failure is `io.ErrUnexpectedEOF`, yet `receiveFileRaw`
returns success — not the fatal error the claim requires. -/
theorem C3_counterexample :
    receiveFileInfo [0, 0] = .error .unexpectedEof ∧
    receiveFileRawLoop 2 [0, 0] = ([], ROut.ok) ∧
    ROut.ok ≠ ROut.fatal :=
  ⟨by decide, by decide, by decide⟩

/-- C3 (amended): a clean end-of-stream before any byte of a frame's length
field makes the receiver loop return success; but an end-of-stream after some
bytes of a frame (surfaced as `io.ErrUnexpectedEOF`, whose message matches the
loop's `"unexpected EOF"` filter) is treated as normal termination as well;
only the remaining decode failure — the oversize-name protocol error — is
surfaced as a fatal error distinct from the success case. -/
theorem C3_amended (s : List Nat) (fuel : Nat) :
    ((receiveFileInfo s = .error .eof ∨ receiveFileInfo s = .error .unexpectedEof) →
      receiveFileRawLoop (fuel + 1) s = ([], ROut.ok)) ∧
    (receiveFileInfo s = .error .tooLong →
      receiveFileRawLoop (fuel + 1) s = ([], ROut.fatal)) ∧
    receiveFileInfo [] = .error .eof := by
  refine ⟨?_, ?_, by decide⟩
  · rintro (h | h) <;> (rw [receiveFileRawLoop]; simp [h])
  · intro h
    rw [receiveFileRawLoop]
    simp [h]

theorem C3_amended_witness : receiveFileRawLoop 1 [0, 0] = ([], ROut.ok) :=
  (C3_amended [0, 0] 0).1 (Or.inr (by decide))

/-! ### Path model

Filesystem path strings are modeled as `List Char`.  `splitSep`,
`intercalateSep` and `cleanComps` implement the lexical processing of Go's
`filepath.Clean` for non-rooted paths (every path built by the program is
non-rooted: they all start with the `received` root or the sent directory's
base name); `filepathJoin` is `filepath.Join` of two non-empty elements, i.e.
`Clean(a + sep + b)`.  The host is the Linux one the program is built for, so
the host separator passed for the receiver's paths is `'/'` and
`filepath.FromSlash` maps `'/'` to itself. -/

def splitSep (sep : Char) : List Char → List (List Char)
  | [] => [[]]
  | c :: rest =>
    match splitSep sep rest with
    | [] => [[c]]
    | h :: t => if c = sep then [] :: h :: t else (c :: h) :: t

def intercalateSep (sep : Char) : List (List Char) → List Char
  | [] => []
  | [p] => p
  | p :: q :: rest => p ++ sep :: intercalateSep sep (q :: rest)

/-- The element loop of `filepath.Clean`: empty and `"."` elements are
dropped, `".."` pops the last kept element unless none is left or it is itself
a `".."` (non-rooted case), anything else is kept. -/
def cleanComps : List (List Char) → List (List Char) → List (List Char)
  | acc, [] => acc.reverse
  | acc, c :: rest =>
    if c = [] ∨ c = ['.'] then cleanComps acc rest
    else if c = ['.', '.'] then
      match acc with
      | [] => cleanComps [['.', '.']] rest
      | top :: tl =>
        if top = ['.', '.'] then cleanComps (c :: acc) rest else cleanComps tl rest
    else cleanComps (c :: acc) rest

def cleanPathSep (sep : Char) (s : List Char) : List Char :=
  match cleanComps [] (splitSep sep s) with
  | [] => ['.']
  | c :: rest => intercalateSep sep (c :: rest)

def filepathJoin (sep : Char) (a b : List Char) : List Char :=
  cleanPathSep sep (a ++ sep :: b)

/-- `filepath.FromSlash`: wire `'/'` to the host separator. -/
def fromSlash (sep : Char) (s : List Char) : List Char :=
  s.map fun c => if c = '/' then sep else c

/-- `filepath.ToSlash`: host separator to wire `'/'`. -/
def toSlash (sep : Char) (s : List Char) : List Char :=
  s.map fun c => if c = sep then '/' else c

/-- The `receiveDir` constant. -/
def receiveDir : List Char := "received".toList

/-- The receiver's target path (lines 410-411):
`filepath.Join(receiveDir, filepath.FromSlash(fi.Filename))`. -/
def fullPathFor (name : List Char) : List Char :=
  filepathJoin '/' receiveDir (fromSlash '/' name)

/-- Whether a cleaned path lies at or below the receive root. -/
def underReceiveRoot (p : List Char) : Bool :=
  p == receiveDir || (receiveDir ++ ['/']).isPrefixOf p

/-- C5: Receive-root containment is not enforced: the descriptor name
`"../evil"` (wire bytes `[46,46,47,101,118,105,108]`) is decoded and accepted,
the receiver loop creates the directory for it, and the target path it is
created at — `filepath.Join("received", "../evil")` — is `"evil"`, which lies
outside the `received` root. -/
theorem C5_escape :
    receiveFileRawLoop 2
        (sendFileInfo
          { Filename := [46, 46, 47, 101, 118, 105, 108], FileSize := 0, IsDirectory := true }
          ++ []) =
      ([RItem.dir [46, 46, 47, 101, 118, 105, 108]], ROut.ok) ∧
    fullPathFor "../evil".toList = "evil".toList ∧
    underReceiveRoot (fullPathFor "../evil".toList) = false :=
  ⟨by decide, by decide, by decide⟩

/-! ### Progress accounting model -/

/-- The `current` value held by the `ProgressWriter` right after a
`printProgress` call: the call sets `current` back to `total` when `total` is
positive and `current` reached it (lines 85-89); otherwise `current` is left
as assigned by the transfer loop. -/
def clampObs (total current : Nat) : Nat :=
  if 0 < total ∧ total ≤ current then total else current

/-- The in-loop observations of `sendSingleFile` (lines 267-288): each
iteration reads `min chunkSize rem` bytes from the file (reads of a regular
file with `rem` bytes left), writes them to the stream, assigns the running
total to `current` and calls `printProgress`.  `total` is the size captured
from `Stat` before the loop. -/
def sendLoopObs (total sent rem : Nat) : List Nat :=
  if rem = 0 then []
  else
    clampObs total (sent + min chunkSize rem) ::
      sendLoopObs total (sent + min chunkSize rem) (rem - min chunkSize rem)
termination_by rem
decreasing_by simp [chunkSize]; omega

/-- Observation sequence of one sent file of `L` bytes: the loop observations,
the forced `current = FileSize` observation (lines 290-291), and the deferred
`Finalize` observation, which re-assigns `current = total` when `total` is
positive (lines 115-121). -/
def sendObs (L : Nat) : List Nat :=
  sendLoopObs L 0 L ++ [clampObs L L, if 0 < L then L else clampObs L L]

/-- The in-loop observations of `receiveFileRaw` on a stream carrying all of
the declared `size` bytes (lines 445-468): each iteration reads
`min chunkSize (size - received)` bytes, adds them to the received count and
observes. -/
def recvLoopObs (size received : Nat) : List Nat :=
  if received < size then
    clampObs size (received + min chunkSize (size - received)) ::
      recvLoopObs size (received + min chunkSize (size - received))
  else []
termination_by size - received
decreasing_by simp [chunkSize]; omega

/-- Observation sequence of one completely received file of `L` bytes: the
loop observations, the forced 100% observation (lines 479-480), and the
`Finalize` observation (line 481). -/
def recvObs (L : Nat) : List Nat :=
  recvLoopObs L 0 ++ [clampObs L L, if 0 < L then L else clampObs L L]

theorem clampObs_mono (t : Nat) {a b : Nat} (h : a ≤ b) :
    clampObs t a ≤ clampObs t b := by
  unfold clampObs; split_ifs <;> omega

theorem clampObs_self (t : Nat) : clampObs t t = t := by
  unfold clampObs; split_ifs <;> omega

theorem sendLoopObs_chain (total : Nat) : ∀ rem sent,
    List.Chain' (· ≤ ·) (clampObs total sent :: sendLoopObs total sent rem) := by
  have H : ∀ k rem, rem ≤ k → ∀ sent,
      List.Chain' (· ≤ ·) (clampObs total sent :: sendLoopObs total sent rem) := by
    intro k
    induction k with
    | zero =>
      intro rem h sent
      rw [sendLoopObs, if_pos (by omega)]
      simp
    | succ k ih =>
      intro rem h sent
      rw [sendLoopObs]
      split
      · simp
      · rename_i hne
        have hc : 0 < chunkSize := by norm_num [chunkSize]
        refine List.chain'_cons.mpr ⟨clampObs_mono total (by omega), ?_⟩
        exact ih (rem - min chunkSize rem) (by omega) (sent + min chunkSize rem)
  exact fun rem sent => H rem rem le_rfl sent

theorem sendLoopObs_le (total : Nat) : ∀ rem sent,
    ∀ x ∈ sendLoopObs total sent rem, x ≤ clampObs total (sent + rem) := by
  have H : ∀ k rem, rem ≤ k → ∀ sent,
      ∀ x ∈ sendLoopObs total sent rem, x ≤ clampObs total (sent + rem) := by
    intro k
    induction k with
    | zero =>
      intro rem h sent
      rw [sendLoopObs, if_pos (by omega)]
      simp
    | succ k ih =>
      intro rem h sent x hx
      rw [sendLoopObs] at hx
      split at hx
      · simp at hx
      · rename_i hne
        have hc : 0 < chunkSize := by norm_num [chunkSize]
        rcases List.mem_cons.mp hx with hx | hx
        · subst hx
          exact clampObs_mono total (by omega)
        · have hb := ih (rem - min chunkSize rem) (by omega) (sent + min chunkSize rem) x hx
          have harith : sent + min chunkSize rem + (rem - min chunkSize rem) = sent + rem := by
            omega
          rwa [harith] at hb
  exact fun rem sent => H rem rem le_rfl sent

theorem recvLoopObs_chain (size : Nat) : ∀ received,
    List.Chain' (· ≤ ·) (clampObs size received :: recvLoopObs size received) := by
  have H : ∀ k received, size - received ≤ k →
      List.Chain' (· ≤ ·) (clampObs size received :: recvLoopObs size received) := by
    intro k
    induction k with
    | zero =>
      intro received h
      rw [recvLoopObs, if_neg (by omega)]
      simp
    | succ k ih =>
      intro received h
      rw [recvLoopObs]
      split
      · rename_i hlt
        have hc : 0 < chunkSize := by norm_num [chunkSize]
        refine List.chain'_cons.mpr ⟨clampObs_mono size (by omega), ?_⟩
        exact ih (received + min chunkSize (size - received)) (by omega)
      · simp
  exact fun received => H (size - received) received le_rfl

theorem recvLoopObs_le (size : Nat) : ∀ received,
    ∀ x ∈ recvLoopObs size received, x ≤ clampObs size size := by
  have H : ∀ k received, size - received ≤ k →
      ∀ x ∈ recvLoopObs size received, x ≤ clampObs size size := by
    intro k
    induction k with
    | zero =>
      intro received h
      rw [recvLoopObs, if_neg (by omega)]
      simp
    | succ k ih =>
      intro received h x hx
      rw [recvLoopObs] at hx
      split at hx
      · rename_i hlt
        have hc : 0 < chunkSize := by norm_num [chunkSize]
        rcases List.mem_cons.mp hx with hx | hx
        · subst hx
          exact clampObs_mono size (by omega)
        · exact ih (received + min chunkSize (size - received)) (by omega) x hx
      · simp at hx
  exact fun received => H (size - received) received le_rfl

/-- Assembling a loop-observation list with the two final observations. -/
theorem chain_obs_append (L : Nat) (loop : List Nat)
    (hchain : List.Chain' (· ≤ ·) loop) (hle : ∀ x ∈ loop, x ≤ L) :
    List.Chain' (· ≤ ·) (loop ++ [clampObs L L, if 0 < L then L else clampObs L L]) ∧
    (loop ++ [clampObs L L, if 0 < L then L else clampObs L L]).getLast? = some L := by
  have hcl : clampObs L L = L := clampObs_self L
  have hfin : (if 0 < L then L else clampObs L L) = L := by rw [hcl]; split <;> rfl
  rw [hfin, hcl]
  constructor
  · rw [List.chain'_append]
    refine ⟨hchain, by simp, ?_⟩
    intro x hx y hy
    have hxl : x ∈ loop := List.mem_of_getLast?_eq_some hx
    have hyL : L = y := by simpa using hy
    subst hyL
    exact hle x hxl
  · rw [show loop ++ [L, L] = (loop ++ [L]) ++ [L] by simp]
    exact List.getLast?_concat _

/-- C6: Progress monotonicity and completion: for a single item transfer of a
file of `L` bytes, on both the send side and the receive side, the sequence of
`current` values held by the active `ProgressWriter` at successive progress
observations is non-decreasing, and the final observed value equals the
declared size `L`. -/
theorem C6_progress (L : Nat) :
    (List.Chain' (· ≤ ·) (sendObs L) ∧ (sendObs L).getLast? = some L) ∧
    (List.Chain' (· ≤ ·) (recvObs L) ∧ (recvObs L).getLast? = some L) := by
  constructor
  · refine chain_obs_append L (sendLoopObs L 0 L) ?_ ?_
    · exact (sendLoopObs_chain L L 0).tail
    · intro x hx
      have := sendLoopObs_le L L 0 x hx
      rwa [Nat.zero_add, clampObs_self] at this
  · refine chain_obs_append L (recvLoopObs L 0) ?_ ?_
    · exact (recvLoopObs_chain L 0).tail
    · intro x hx
      have := recvLoopObs_le L 0 x hx
      rwa [clampObs_self] at this

/-! ### Sender directory walk (`sendDirectoryRaw`)

The directory being sent is an abstract filesystem tree; `filepath.Walk`
visits its descendants depth-first in the order the tree lists them.  `sep` is
the host path separator: `filepath.Rel` produces host-separated relative
paths, which the code joins to the base name and then normalizes with
`filepath.ToSlash`. -/

mutual
inductive FSNode where
  | file (name : List Char) (size : Nat) : FSNode
  | dir (name : List Char) (children : FSForest) : FSNode
inductive FSForest where
  | nil : FSForest
  | cons (hd : FSNode) (tl : FSForest) : FSForest
end

/-- A descriptor as the sender builds it (filename still a path string). -/
structure SendDesc where
  Filename : List Char
  FileSize : Int
  IsDirectory : Bool
  deriving DecidableEq

/-- The `fullRelPath` the code computes for a descendant whose path relative
to the sent directory has components `comps` (lines 335-346):
`filepath.ToSlash(filepath.Join(baseName, relPath))` where `relPath` is the
host-separated relative path from `filepath.Rel`. -/
def fullRelName (sep : Char) (base : List Char) (comps : List (List Char)) : List Char :=
  toSlash sep (filepathJoin sep base (intercalateSep sep comps))

mutual
def walkNode (sep : Char) (base : List Char) (comps : List (List Char)) :
    FSNode → List SendDesc
  | .file name size =>
    [{ Filename := fullRelName sep base (comps ++ [name]), FileSize := (size : Int),
       IsDirectory := false }]
  | .dir name children =>
    { Filename := fullRelName sep base (comps ++ [name]), FileSize := 0, IsDirectory := true }
      :: walkForest sep base (comps ++ [name]) children
def walkForest (sep : Char) (base : List Char) (comps : List (List Char)) :
    FSForest → List SendDesc
  | .nil => []
  | .cons hd tl => walkNode sep base comps hd ++ walkForest sep base comps tl
end

/-- `sendDirectoryRaw` (lines 297-369): the root directory marker — named by
the base name of the directory path, with size 0 — followed by one descriptor
per descendant in walk order (subdirectories with size 0, files with their
stat size, via `sendSingleFile`). -/
def sendDirectoryRaw (sep : Char) (base : List Char) (children : FSForest) :
    List SendDesc :=
  { Filename := base, FileSize := 0, IsDirectory := true } :: walkForest sep base [] children

/-- Per the spec's words: a descendant with relative component path `comps` is
transferred under `<base>/<relative path>` joined with forward slashes. -/
def specRelName (base : List Char) (comps : List (List Char)) : List Char :=
  intercalateSep '/' (base :: comps)

mutual
def specWalkNode (base : List Char) (comps : List (List Char)) : FSNode → List SendDesc
  | .file name size =>
    [{ Filename := specRelName base (comps ++ [name]), FileSize := (size : Int),
       IsDirectory := false }]
  | .dir name children =>
    { Filename := specRelName base (comps ++ [name]), FileSize := 0, IsDirectory := true }
      :: specWalkForest base (comps ++ [name]) children
def specWalkForest (base : List Char) (comps : List (List Char)) : FSForest → List SendDesc
  | .nil => []
  | .cons hd tl => specWalkNode base comps hd ++ specWalkForest base comps tl
end

/-- The spec-side rendering of `sendDirectoryRaw`, with every descendant name
built from forward slashes directly. -/
def specSendDirectoryRaw (base : List Char) (children : FSForest) : List SendDesc :=
  { Filename := base, FileSize := 0, IsDirectory := true } :: specWalkForest base [] children

/-- A well-formed filename component: non-empty, not a dot component, and free
of the host separator (a filesystem cannot hand `filepath.Walk` an entry name
containing the host separator or equal to `.` / `..`). -/
def goodName (sep : Char) (n : List Char) : Bool :=
  decide (n ≠ [] ∧ n ≠ ['.'] ∧ n ≠ ['.', '.'] ∧ sep ∉ n)

mutual
def goodNode (sep : Char) : FSNode → Bool
  | .file name _ => goodName sep name
  | .dir name children => goodName sep name && goodForest sep children
def goodForest (sep : Char) : FSForest → Bool
  | .nil => true
  | .cons hd tl => goodNode sep hd && goodForest sep tl
end

mutual
theorem walkNode_dir_size (sep : Char) (base : List Char) (comps : List (List Char)) :
    ∀ (t : FSNode) (d : SendDesc), d ∈ walkNode sep base comps t →
      d.IsDirectory = true → d.FileSize = 0
  | .file name size, d, hmem, hdir => by
    simp only [walkNode, List.mem_singleton] at hmem
    subst hmem
    simp at hdir
  | .dir name children, d, hmem, hdir => by
    rw [walkNode] at hmem
    rcases List.mem_cons.mp hmem with h | h
    · subst h; rfl
    · exact walkForest_dir_size sep base (comps ++ [name]) children d h hdir
theorem walkForest_dir_size (sep : Char) (base : List Char) (comps : List (List Char)) :
    ∀ (f : FSForest) (d : SendDesc), d ∈ walkForest sep base comps f →
      d.IsDirectory = true → d.FileSize = 0
  | .nil, d, hmem, _ => by simp [walkForest] at hmem
  | .cons hd0 tl, d, hmem, hdir => by
    rw [walkForest] at hmem
    rcases List.mem_append.mp hmem with h | h
    · exact walkNode_dir_size sep base comps hd0 d h hdir
    · exact walkForest_dir_size sep base comps tl d h hdir
end

/-- C7: Directory descriptors carry size zero: every descriptor emitted by
`sendDirectoryRaw` with the directory flag set — the root marker and every
descendant subdirectory marker — has `FileSize = 0`. -/
theorem C7_dir_size_zero (sep : Char) (base : List Char) (f : FSForest) (d : SendDesc)
    (hmem : d ∈ sendDirectoryRaw sep base f) (hdir : d.IsDirectory = true) :
    d.FileSize = 0 := by
  rcases List.mem_cons.mp hmem with h | h
  · subst h; rfl
  · exact walkForest_dir_size sep base [] f d h hdir

/-- A sample tree: a directory `s` holding a 2-byte file `f`. -/
def demoForest : FSForest :=
  .cons (.dir "s".toList (.cons (.file "f".toList 2) .nil)) .nil

theorem C7_dir_size_zero_witness :
    ({ Filename := "d/s".toList, FileSize := 0, IsDirectory := true } : SendDesc) ∈
        sendDirectoryRaw '/' "d".toList demoForest ∧
    ({ Filename := "d/s".toList, FileSize := 0, IsDirectory := true } : SendDesc).FileSize = 0 :=
  ⟨by decide,
    C7_dir_size_zero '/' "d".toList demoForest
      { Filename := "d/s".toList, FileSize := 0, IsDirectory := true } (by decide) (by decide)⟩

theorem splitSep_ne_nil (sep : Char) (l : List Char) : splitSep sep l ≠ [] := by
  cases l with
  | nil => simp [splitSep]
  | cons c rest =>
    rw [splitSep]
    split
    · simp
    · split <;> simp

theorem splitSep_no_sep (sep : Char) (l : List Char) (h : sep ∉ l) :
    splitSep sep l = [l] := by
  induction l with
  | nil => rfl
  | cons c rest ih =>
    simp only [List.mem_cons, not_or] at h
    simp only [splitSep, ih h.2]
    rw [if_neg (fun hc => h.1 hc.symm)]

theorem splitSep_append_cons (sep : Char) (p t : List Char) (h : sep ∉ p) :
    splitSep sep (p ++ sep :: t) = p :: splitSep sep t := by
  induction p with
  | nil =>
    cases hsp : splitSep sep t with
    | nil => exact absurd hsp (splitSep_ne_nil sep t)
    | cons h0 t0 =>
      simp [splitSep, hsp]
  | cons c p' ih =>
    simp only [List.mem_cons, not_or] at h
    simp only [List.cons_append, splitSep, List.append_eq, ih h.2]
    rw [if_neg (fun hc => h.1 hc.symm)]

theorem splitSep_intercalate (sep : Char) :
    ∀ parts : List (List Char), parts ≠ [] → (∀ p ∈ parts, sep ∉ p) →
      splitSep sep (intercalateSep sep parts) = parts
  | [], h, _ => absurd rfl h
  | [p], _, hall => by
    rw [intercalateSep]
    exact splitSep_no_sep sep p (hall p (by simp))
  | p :: q :: rest, _, hall => by
    rw [intercalateSep]
    rw [splitSep_append_cons sep p _ (hall p (by simp))]
    rw [splitSep_intercalate sep (q :: rest) (by simp) (fun r hr => hall r (by simp [hr]))]

theorem cleanComps_good :
    ∀ parts : List (List Char),
      (∀ c ∈ parts, c ≠ [] ∧ c ≠ ['.'] ∧ c ≠ ['.', '.']) →
      ∀ acc, cleanComps acc parts = acc.reverse ++ parts
  | [], _, acc => by simp [cleanComps]
  | c :: rest, hall, acc => by
    obtain ⟨h1, h2, h3⟩ := hall c (by simp)
    have hstep : cleanComps acc (c :: rest) =
        if c = [] ∨ c = ['.'] then cleanComps acc rest
        else if c = ['.', '.'] then
          (match acc with
           | [] => cleanComps [['.', '.']] rest
           | top :: tl =>
             if top = ['.', '.'] then cleanComps (c :: acc) rest else cleanComps tl rest)
        else cleanComps (c :: acc) rest := rfl
    rw [hstep]
    rw [if_neg (by simp [h1, h2])]
    rw [if_neg h3]
    rw [cleanComps_good rest (fun x hx => hall x (by simp [hx])) (c :: acc)]
    simp

theorem toSlash_no_sep (sep : Char) (p : List Char) (h : sep ∉ p) : toSlash sep p = p := by
  induction p with
  | nil => rfl
  | cons c rest ih =>
    simp only [List.mem_cons, not_or] at h
    simp only [toSlash, List.map_cons] at ih ⊢
    rw [if_neg (fun hc => h.1 hc.symm), ih h.2]

theorem toSlash_intercalate (sep : Char) :
    ∀ parts : List (List Char), (∀ p ∈ parts, sep ∉ p) →
      toSlash sep (intercalateSep sep parts) = intercalateSep '/' parts
  | [], _ => rfl
  | [p], hall => by
    rw [intercalateSep, intercalateSep]
    exact toSlash_no_sep sep p (hall p (by simp))
  | p :: q :: rest, hall => by
    rw [intercalateSep, intercalateSep]
    show toSlash sep (p ++ sep :: intercalateSep sep (q :: rest)) =
      p ++ '/' :: intercalateSep '/' (q :: rest)
    simp only [toSlash, List.map_append, List.map_cons]
    simp only [if_pos, if_true]
    have h1 : toSlash sep p = p := toSlash_no_sep sep p (hall p (by simp))
    have h2 := toSlash_intercalate sep (q :: rest) (fun r hr => hall r (by simp [hr]))
    simp only [toSlash] at h1 h2
    rw [h1, h2]

theorem goodName_spec {sep : Char} {n : List Char} (h : goodName sep n = true) :
    n ≠ [] ∧ n ≠ ['.'] ∧ n ≠ ['.', '.'] ∧ sep ∉ n :=
  of_decide_eq_true h

theorem fullRelName_spec (sep : Char) (base : List Char) (comps : List (List Char))
    (hbase : goodName sep base = true)
    (hcomps : ∀ c ∈ comps, goodName sep c = true)
    (hne : comps ≠ []) :
    fullRelName sep base comps = specRelName base comps := by
  obtain ⟨hb1, hb2, hb3, hb4⟩ := goodName_spec hbase
  have hall : ∀ p ∈ base :: comps, sep ∉ p := by
    intro p hp
    rcases List.mem_cons.mp hp with h | h
    · subst h; exact hb4
    · exact (goodName_spec (hcomps p h)).2.2.2
  have hgood : ∀ c ∈ base :: comps, c ≠ [] ∧ c ≠ ['.'] ∧ c ≠ ['.', '.'] := by
    intro c hc
    rcases List.mem_cons.mp hc with h | h
    · subst h; exact ⟨hb1, hb2, hb3⟩
    · obtain ⟨x1, x2, x3, _⟩ := goodName_spec (hcomps c h)
      exact ⟨x1, x2, x3⟩
  have hjoin : base ++ sep :: intercalateSep sep comps = intercalateSep sep (base :: comps) := by
    cases comps with
    | nil => exact absurd rfl hne
    | cons c rest => rfl
  unfold fullRelName filepathJoin
  rw [hjoin]
  simp only [cleanPathSep, splitSep_intercalate sep (base :: comps) (by simp) hall,
    cleanComps_good (base :: comps) hgood [], List.reverse_nil, List.nil_append]
  rw [toSlash_intercalate sep (base :: comps) hall]
  rfl

mutual
theorem walkNode_spec (sep : Char) (base : List Char) :
    ∀ (comps : List (List Char)) (t : FSNode),
      goodName sep base = true → (∀ c ∈ comps, goodName sep c = true) →
      goodNode sep t = true →
      walkNode sep base comps t = specWalkNode base comps t
  | comps, .file name size, hbase, hcomps, ht => by
    have hname : goodName sep name = true := by simpa [goodNode] using ht
    have hcomps' : ∀ c ∈ comps ++ [name], goodName sep c = true := by
      intro c hc
      rcases List.mem_append.mp hc with h | h
      · exact hcomps c h
      · simp only [List.mem_singleton] at h; subst h; exact hname
    rw [walkNode, specWalkNode]
    rw [fullRelName_spec sep base (comps ++ [name]) hbase hcomps' (by simp)]
  | comps, .dir name children, hbase, hcomps, ht => by
    have ht' : goodName sep name = true ∧ goodForest sep children = true := by
      simpa [goodNode, Bool.and_eq_true] using ht
    have hcomps' : ∀ c ∈ comps ++ [name], goodName sep c = true := by
      intro c hc
      rcases List.mem_append.mp hc with h | h
      · exact hcomps c h
      · simp only [List.mem_singleton] at h; subst h; exact ht'.1
    rw [walkNode, specWalkNode]
    rw [fullRelName_spec sep base (comps ++ [name]) hbase hcomps' (by simp)]
    rw [walkForest_spec sep base (comps ++ [name]) children hbase hcomps' ht'.2]
theorem walkForest_spec (sep : Char) (base : List Char) :
    ∀ (comps : List (List Char)) (f : FSForest),
      goodName sep base = true → (∀ c ∈ comps, goodName sep c = true) →
      goodForest sep f = true →
      walkForest sep base comps f = specWalkForest base comps f
  | _,  .nil, _, _, _ => rfl
  | comps, .cons hd0 tl, hbase, hcomps, hf => by
    have hf' : goodNode sep hd0 = true ∧ goodForest sep tl = true := by
      simpa [goodForest, Bool.and_eq_true] using hf
    rw [walkForest, specWalkForest]
    rw [walkNode_spec sep base comps hd0 hbase hcomps hf'.1]
    rw [walkForest_spec sep base comps tl hbase hcomps hf'.2]
end

/-- C8: Descendant relative-name computation: when sending a directory over
a filesystem with well-formed entry names, every descendant (file or
subdirectory) is transferred under the name formed by joining the directory's
base name with the descendant's path relative to that directory, all path
separators normalized to forward slashes, whatever the host separator `sep`
is. -/
theorem C8_relative_names (sep : Char) (base : List Char) (f : FSForest)
    (hbase : goodName sep base = true) (hf : goodForest sep f = true) :
    sendDirectoryRaw sep base f = specSendDirectoryRaw base f := by
  unfold sendDirectoryRaw specSendDirectoryRaw
  rw [walkForest_spec sep base [] f hbase (by simp) hf]

theorem C8_relative_names_witness :
    (goodName '\\' "d".toList = true ∧ goodForest '\\' demoForest = true) ∧
    sendDirectoryRaw '\\' "d".toList demoForest = specSendDirectoryRaw "d".toList demoForest :=
  ⟨⟨by decide, by decide⟩,
    C8_relative_names '\\' "d".toList demoForest (by decide) (by decide)⟩

end OnionTransfer
